import Mathlib

/-! # Section headers of GitLab-flavoured CODEOWNERS files

A shallow embedding of `section.go` (package `codeowners`): the section
pattern `sectionRegexp`, the header parser `parseSection` and the defaulting
operation `addFromSection`, followed by theorems about them.

Conventions of the embedding.

* A Go `string` is modelled as the list of its Unicode code points
  (`GoString`), i.e. strings that are valid UTF-8.  Every character the
  pattern names (`^`, `[`, `]`, space, newline, the digits) is ASCII, so
  matching by code point and matching by byte agree on such strings.
* A Go slice is modelled as a `List`; the `nil` slice and the empty slice are
  both `[]`.
* A Go `(T, error)` result is modelled as `Except Error T`.
* The collaborators that live outside `section.go` are parameters:
  the rule parser `parseRule`, the options type `parseOptions`, and the width
  `intSize` of Go's `int` (32 or 64 on the supported platforms).
-/

namespace Codeowners

/-- A Go string, as its sequence of code points. -/
abbrev GoString := List Char

/-! ## Errors -/

/-- Go `error` values that can travel through `parseSection`.
`ErrNoMatch` is the package's sentinel; `errorf` is `fmt.Errorf` without a
wrapping verb, `wrapf msg cause` is `fmt.Errorf(msg + ": %w", cause)`;
`numError` is `*strconv.NumError`, whose `Err` is one of the two `strconv`
sentinels; `other` stands for any further error value a collaborator returns. -/
inductive Error where
  | ErrNoMatch : Error
  | ErrSyntax : Error
  | ErrRange : Error
  | errorf (msg : String) : Error
  | numError (func : String) (num : GoString) (err : Error) : Error
  | wrapf (msg : String) (cause : Error) : Error
  | other (msg : String) : Error
  deriving DecidableEq, Repr

/-- A model of `errors.Is(err, target)` for a sentinel `target`: follow the
`Unwrap` chain of `err` and compare each link with `target`. -/
def Error.Is : Error → Error → Bool
  | .wrapf msg cause, target =>
      decide (Error.wrapf msg cause = target) || Error.Is cause target
  | .numError f n err, target =>
      decide (Error.numError f n err = target) || Error.Is err target
  | e, target => decide (e = target)

/-! ## The regular expression engine

`regexp.FindStringSubmatch` returns the leftmost match and, among the matches
that start there, the one a backtracking engine finds first (greedy operators
prefer more).  The engine below is such a backtracking matcher in
continuation-passing style, for the operators `sectionRegexp` uses. -/

/-- Regular expressions, restricted to the operators of `sectionRegexp`.
A character class is given by its membership test. -/
inductive Regex where
  /-- The anchor `^` without the `m` flag: the beginning of the text. -/
  | beginText : Regex
  /-- The anchor `$` without the `m` flag: the end of the text. -/
  | endText : Regex
  /-- One character of a class (a literal is a one-element class). -/
  | chr (p : Char → Bool) : Regex
  /-- Greedy `x*` over a character class. -/
  | star (p : Char → Bool) : Regex
  /-- Greedy `x+` over a character class. -/
  | plus (p : Char → Bool) : Regex
  /-- Greedy `r?`. -/
  | opt (r : Regex) : Regex
  /-- Capturing group number `idx`, named `name`. -/
  | group (idx : Nat) (name : String) (r : Regex) : Regex
  /-- Concatenation. -/
  | seq (r₁ r₂ : Regex) : Regex

/-- The submatch texts, indexed by group number (index 0 is the whole match).
A group that did not take part holds the empty string, as in Go. -/
abbrev Caps := List GoString

/-- A continuation of the matcher: position reached (code points consumed
since the start of the text), the remaining text, the captures so far. -/
abbrev Cont := Nat → GoString → Caps → Option (Nat × Caps)

/-- Greedy repetition of a class: consume one more character when possible and
fall back to stopping here when the rest of the pattern then fails. -/
def starGreedy (p : Char → Bool) (k : Cont) : Cont
  | pos, [], caps => k pos [] caps
  | pos, c :: cs, caps =>
      if p c then starGreedy p k (pos + 1) cs caps <|> k pos (c :: cs) caps
      else k pos (c :: cs) caps

/-- Run a regular expression at a position, then the continuation `k` on what
is left; alternatives are tried in the order of preference. -/
def Regex.run : Regex → Cont → Cont
  | .beginText, k, pos, rest, caps => if pos = 0 then k pos rest caps else none
  | .endText, k, pos, rest, caps =>
      match rest with
      | [] => k pos [] caps
      | _ :: _ => none
  | .chr p, k, pos, rest, caps =>
      match rest with
      | [] => none
      | c :: cs => if p c then k (pos + 1) cs caps else none
  | .star p, k, pos, rest, caps => starGreedy p k pos rest caps
  | .plus p, k, pos, rest, caps =>
      match rest with
      | [] => none
      | c :: cs => if p c then starGreedy p k (pos + 1) cs caps else none
  | .opt r, k, pos, rest, caps => r.run k pos rest caps <|> k pos rest caps
  | .group idx _ r, k, pos, rest, caps =>
      r.run (fun pos' rest' caps' => k pos' rest' (caps'.set idx (rest.take (pos' - pos))))
        pos rest caps
  | .seq r₁ r₂, k, pos, rest, caps => r₁.run (r₂.run k) pos rest caps

/-- The number of capturing groups of a pattern (`Regexp.NumSubexp`). -/
def Regex.NumSubexp : Regex → Nat
  | .opt r => r.NumSubexp
  | .group _ _ r => r.NumSubexp + 1
  | .seq r₁ r₂ => r₁.NumSubexp + r₂.NumSubexp
  | _ => 0

/-- The number of the first group with the given name, or `-1`
(`Regexp.SubexpIndex`). -/
def Regex.SubexpIndex : Regex → String → Int
  | .opt r, n => r.SubexpIndex n
  | .group idx name r, n => if name = n then (idx : Int) else r.SubexpIndex n
  | .seq r₁ r₂, n =>
      if r₁.SubexpIndex n = -1 then r₂.SubexpIndex n else r₁.SubexpIndex n
  | _, _ => -1

/-- The continuation that accepts: it reports the end position and the
captures. -/
def accept : Cont := fun pos _ caps => some (pos, caps)

/-- One attempt of the search: a match of `re` that starts at offset `pos`,
where `rest` is the text from there on.  On success the whole match is stored
as submatch 0. -/
def matchAt (re : Regex) (pos : Nat) (rest : GoString) : Option (List GoString) :=
  (re.run accept pos rest (List.replicate (re.NumSubexp + 1) [])).map
    (fun r => r.2.set 0 (rest.take (r.1 - pos)))

/-- The search of `FindStringSubmatch` from the start offset `pos` on: try a
match here, else move one character on. -/
def findFrom (re : Regex) : Nat → GoString → Option (List GoString)
  | pos, [] => matchAt re pos []
  | pos, c :: cs => matchAt re pos (c :: cs) <|> findFrom re (pos + 1) cs

/-- Go's `Regexp.FindStringSubmatch`: the texts of the leftmost match and of its
groups, or `none` (Go's `nil`) when the pattern matches nowhere. -/
def Regex.FindStringSubmatch (re : Regex) (s : GoString) : Option (List GoString) :=
  findFrom re 0 s

/-! ## The section pattern -/

/-- The class `[^\]\[\n]`. -/
def nameChar (c : Char) : Bool := !(c == ']' || c == '[' || c == '\n')

/-- The class `\d`, the ASCII digits. -/
def digitChar (c : Char) : Bool := c.isDigit

/-- The class `.` without the `s` flag: anything but a newline. -/
def anyChar (c : Char) : Bool := !(c == '\n')

/-- The pattern of `sectionRegexp`,
`^(?<optional>\^)?\[(?<name>[^\]\[\n]+)\](?:\[(?<approvals>\d+)\])?(?: )?(?<owners>.*)$`,
one constructor per operator, concatenation nested to the right. -/
def sectionRegexp : Regex :=
  .seq .beginText <|
  .seq (.opt (.group 1 "optional" (.chr (· == '^')))) <|
  .seq (.chr (· == '[')) <|
  .seq (.group 2 "name" (.plus nameChar)) <|
  .seq (.chr (· == ']')) <|
  .seq (.opt (.seq (.chr (· == '[')) <|
              .seq (.group 3 "approvals" (.plus digitChar)) (.chr (· == ']')))) <|
  .seq (.opt (.chr (· == ' '))) <|
  .seq (.group 4 "owners" (.star anyChar)) .endText

/-! ## Standard-library functions used by `parseSection` -/

/-- Go's `unicode.IsSpace`: the code points with the Unicode White_Space
property. -/
def isSpace (c : Char) : Bool :=
  let n := c.toNat
  (0x09 ≤ n && n ≤ 0x0D) || n == 0x20 || n == 0x85 || n == 0xA0 || n == 0x1680 ||
  (0x2000 ≤ n && n ≤ 0x200A) || n == 0x2028 || n == 0x2029 || n == 0x202F ||
  n == 0x205F || n == 0x3000

/-- Go's `strings.TrimSpace`: the string without its leading and trailing white
space. -/
def TrimSpace (s : GoString) : GoString :=
  ((s.dropWhile isSpace).reverse.dropWhile isSpace).reverse

/-- The number a string of decimal digits denotes, most significant digit
first. -/
def decimalValue (ds : GoString) : Nat :=
  ds.foldl (fun n c => 10 * n + (c.toNat - '0'.toNat)) 0

/-- The largest value of a Go `int` of `intSize` bits. -/
def maxInt (intSize : Nat) : Nat := 2 ^ (intSize - 1) - 1

/-- Go's `strconv.Atoi` for an `int` of `intSize` bits, by its contract: an
optional sign and one or more ASCII digits, else `ErrSyntax`; a value outside
the range of `int` is `ErrRange`. -/
def Atoi (intSize : Nat) (s : GoString) : Except Error Int :=
  match s with
  | [] => .error (.numError "Atoi" s .ErrSyntax)
  | c :: t =>
    let neg : Bool := c == '-'
    let body : GoString := if c == '-' || c == '+' then t else c :: t
    if body = [] ∨ body.all digitChar = false then
      .error (.numError "Atoi" s .ErrSyntax)
    else if neg = false ∧ maxInt intSize < decimalValue body then
      .error (.numError "Atoi" s .ErrRange)
    else if neg = true ∧ maxInt intSize + 1 < decimalValue body then
      .error (.numError "Atoi" s .ErrRange)
    else if neg then .ok (-(decimalValue body : Int))
    else .ok (decimalValue body : Int)

/-! ## The data model -/

/-- An owner of a rule or section (declared outside `section.go`): a value and
the kind of owner it is. -/
structure Owner where
  Value : GoString
  OwnerType : String
  deriving DecidableEq, Repr

/-- The Go struct `Section`. -/
structure Section where
  Optional : Bool
  Name : GoString
  Approvals : Int
  Owners : List Owner
  deriving DecidableEq, Repr

/-- The Go struct `Rule` (declared outside `section.go`), as far as
`section.go` sees it: the two fields it names, and `rest` for all the fields
it never names. -/
structure Rule (ρ : Type) where
  Optional : Bool
  Owners : List Owner
  rest : ρ
  deriving DecidableEq, Repr

/-! ## parseSection and addFromSection -/

/-- The message of the error for a bad approvals number. -/
def approvalsMsg : String := "failed to parse approvals from section as int"

/-- The message of the error for a section whose owners do not parse. -/
def ownersMsg : String := "failed to parse section owners"

/-- The function `parseSection` of `section.go`.  Its collaborators are
parameters: `intSize` is the width of `int`, `parseRule` the rule parser, and
`parseOptions` the type of the options, which are only handed on. -/
def parseSection {parseOptions ρ : Type} (intSize : Nat)
    (parseRule : GoString → parseOptions → Except Error (Rule ρ))
    (s : GoString) (opts : parseOptions) : Except Error Section :=
  match sectionRegexp.FindStringSubmatch s with
  | none => .error .ErrNoMatch
  | some submatches =>
    if submatches.length ≠ 5 then
      .error (.errorf ("regexp return an unexpected number of matches: " ++
        toString submatches.length))
    else
      let optionalIdx := (sectionRegexp.SubexpIndex "optional").toNat
      let nameIdx := (sectionRegexp.SubexpIndex "name").toNat
      let approvalsIdx := (sectionRegexp.SubexpIndex "approvals").toNat
      let ownersIdx := (sectionRegexp.SubexpIndex "owners").toNat
      let approvalsStr := submatches.getD approvalsIdx []
      let approvals : Except Error Int :=
        if approvalsStr ≠ [] then
          match Atoi intSize approvalsStr with
          | .ok n => .ok n
          | .error err => .error (.wrapf approvalsMsg err)
        else .ok 1
      match approvals with
      | .error e => .error e
      | .ok approvals =>
        let ownersStr := submatches.getD ownersIdx []
        if TrimSpace ownersStr ≠ [] then
          let fakeRule := "/* ".toList ++ ownersStr
          match parseRule fakeRule opts with
          | .error err => .error (.wrapf ownersMsg err)
          | .ok r =>
            .ok { Optional := decide (submatches.getD optionalIdx [] = ['^']),
                  Name := submatches.getD nameIdx [],
                  Approvals := approvals,
                  Owners := r.Owners }
        else
          .ok { Optional := decide (submatches.getD optionalIdx [] = ['^']),
                Name := submatches.getD nameIdx [],
                Approvals := approvals,
                Owners := [] }

/-- The function `addFromSection` of `section.go`.  It works in place on the
two objects its pointer arguments name; here the state of both after the call
is returned: the rule first, the section second. -/
def addFromSection {ρ : Type} (r : Rule ρ) (s : Section) : Rule ρ × Section :=
  let r := { r with Optional := s.Optional }
  if r.Owners.length = 0 ∧ s.Owners.length > 0 then
    ({ r with Owners := s.Owners }, s)
  else (r, s)

/-! ## The grammar of a section header, in the words of the specification -/

/-- The line is a section header with the given parts: an optional leading
caret `pre`, the name between brackets, and the text `tail` after the name's
closing bracket; the name is not empty and has no bracket and no newline in
it, and there is no newline in the line. -/
def IsHeader (line pre name tail : GoString) : Prop :=
  line = pre ++ '[' :: (name ++ ']' :: tail) ∧ (pre = [] ∨ pre = ['^']) ∧ name ≠ [] ∧
    (∀ c ∈ name, c ≠ '[' ∧ c ≠ ']' ∧ c ≠ '\n') ∧ '\n' ∉ line

/-- The line matches the section grammar in full. -/
def MatchesGrammar (line : GoString) : Prop :=
  ∃ pre name tail, IsHeader line pre name tail

/-- The text `tail` starts with an approvals group: an opening bracket, the
digits `ds`, one or more, and a closing bracket; `trailing` is the text after
it. -/
def ApprovalsGroup (tail ds trailing : GoString) : Prop :=
  tail = '[' :: (ds ++ ']' :: trailing) ∧ ds ≠ [] ∧ ∀ c ∈ ds, digitChar c = true

/-- The text after a header's name splits into the approvals group, when the
text starts with one (`some` of its digits), and the trailing text. -/
def TailParts (tail : GoString) (approvals : Option GoString) (trailing : GoString) : Prop :=
  (∃ ds, approvals = some ds ∧ ApprovalsGroup tail ds trailing) ∨
  (approvals = none ∧ trailing = tail ∧ ¬ ∃ ds t, ApprovalsGroup tail ds t)

/-- The text is blank: nothing but white space. -/
def Blank (t : GoString) : Prop := ∀ c ∈ t, isSpace c = true

instance (t : GoString) : Decidable (Blank t) := by
  unfold Blank; infer_instance

/-- What the group `(?: )?` leaves: the text without one leading space. -/
def stripSpace (t : GoString) : GoString :=
  match t with
  | [] => []
  | c :: u => if c == ' ' then u else c :: u

/-- The approvals number of a header: the value of the digits of its approvals
group, and 1 for a header without such a group. -/
def approvalsNumber (approvals : Option GoString) : Int :=
  match approvals with
  | some ds => (decimalValue ds : Int)
  | none => 1

/-- The decimal rendering of a natural number, as Go's `strconv.Itoa` gives it
for a value that is not negative. -/
def decimal (n : Nat) : GoString := Nat.toDigits 10 n

/-! ## Sample collaborators, for the concrete instances -/

/-- A rule parser that always succeeds and reports the line it was given as
the value of the single owner of the rule. -/
def echoRule : GoString → Unit → Except Error (Rule Unit) :=
  fun s _ => .ok { Optional := false, Owners := [{ Value := s, OwnerType := "echo" }], rest := () }

/-- A rule parser that always fails. -/
def failRule : GoString → Unit → Except Error (Rule Unit) :=
  fun _ _ => .error (.other "unexpected character in owner")

/-! ## Auxiliary definitions for the proofs

The submatches of `sectionRegexp` computed directly from the line, the pieces
of the pattern from each operator on, and the end of `parseSection` as a
function of the extracted fields. -/

/-- A bracket group at the head of a text, if there is one: an opening bracket,
one or more characters of the class `p`, as many as there are, and a closing
bracket.  The result is the text between the brackets and the text after the
closing bracket. -/
def splitBracket (p : Char → Bool) (t : GoString) : Option (GoString × GoString) :=
  match t with
  | [] => none
  | c :: u =>
    if c == '[' then
      match u.takeWhile p, u.dropWhile p with
      | [], _ => none
      | _ :: _, [] => none
      | d :: ds, e :: v => if e == ']' then some (d :: ds, v) else none
    else none

/-- The digits of the approvals group at the head of the text after the name,
or the empty string when there is no such group. -/
def approvalsOf (tail : GoString) : GoString :=
  match splitBracket digitChar tail with
  | some x => x.1
  | none => []

/-- The owners text: what follows the approvals group, or the name when there
is no such group, without one leading space. -/
def ownersOf (tail : GoString) : GoString :=
  match splitBracket digitChar tail with
  | some x => stripSpace x.2
  | none => stripSpace tail

/-- The five submatches of `sectionRegexp` on a line, computed directly. -/
def headerFields (line : GoString) : Option (List GoString) :=
  match line with
  | [] => none
  | c :: u =>
    (splitBracket nameChar (if c == '^' then u else c :: u)).bind (fun x =>
      if x.2.all anyChar = true then
        some [c :: u, if c == '^' then ['^'] else [], x.1, approvalsOf x.2, ownersOf x.2]
      else none)

/-- The captures after the part of the pattern that follows the name's closing
bracket has matched the text `rest`. -/
def tailCaps (caps : Caps) (rest : GoString) : Caps :=
  match splitBracket digitChar rest with
  | some x => (caps.set 3 x.1).set 4 (stripSpace x.2)
  | none => caps.set 4 (stripSpace rest)

/-- The pattern from the owners group on: `(?<owners>.*)$`. -/
def ownersTail : Regex := .seq (.group 4 "owners" (.star anyChar)) .endText

/-- The pattern from the separator on: `(?: )?(?<owners>.*)$`. -/
def spaceTail : Regex := .seq (.opt (.chr (· == ' '))) ownersTail

/-- The approvals group without its question mark: `\[(?<approvals>\d+)\]`. -/
def approvalsGroup : Regex :=
  .seq (.chr (· == '[')) <| .seq (.group 3 "approvals" (.plus digitChar)) (.chr (· == ']'))

/-- The pattern from the approvals group on. -/
def approvalsTail : Regex := .seq (.opt approvalsGroup) spaceTail

/-- The pattern from the opening bracket of the name on. -/
def nameTail : Regex :=
  .seq (.chr (· == '[')) <| .seq (.group 2 "name" (.plus nameChar)) <|
  .seq (.chr (· == ']')) approvalsTail

/-- The end of `parseSection`: the owners of the section from the owners text,
given the other three fields. -/
def withOwners {parseOptions ρ : Type}
    (parseRule : GoString → parseOptions → Except Error (Rule ρ)) (opts : parseOptions)
    (optional : Bool) (name : GoString) (approvals : Int) (ownersStr : GoString) :
    Except Error Section :=
  if Blank ownersStr then
    .ok { Optional := optional, Name := name, Approvals := approvals, Owners := [] }
  else
    match parseRule ("/* ".toList ++ ownersStr) opts with
    | .error err => .error (.wrapf ownersMsg err)
    | .ok r =>
      .ok { Optional := optional, Name := name, Approvals := approvals, Owners := r.Owners }

/-! ## Lemmas on the matcher -/

theorem run_seq (a b : Regex) (k : Cont) : (Regex.seq a b).run k = a.run (b.run k) := by
  funext pos rest caps; rfl

theorem run_opt (r : Regex) (k : Cont) (pos : Nat) (rest : GoString) (caps : Caps) :
    (Regex.opt r).run k pos rest caps = (r.run k pos rest caps <|> k pos rest caps) := rfl

theorem run_chr_nil (p : Char → Bool) (k : Cont) (pos : Nat) (caps : Caps) :
    (Regex.chr p).run k pos [] caps = none := rfl

theorem run_chr_cons (p : Char → Bool) (k : Cont) (pos : Nat) (c : Char) (cs : GoString)
    (caps : Caps) :
    (Regex.chr p).run k pos (c :: cs) caps = if p c = true then k (pos + 1) cs caps else none :=
  rfl

theorem run_group (idx : Nat) (name : String) (r : Regex) (k : Cont) (pos : Nat)
    (rest : GoString) (caps : Caps) :
    (Regex.group idx name r).run k pos rest caps
      = r.run (fun pos' rest' caps' => k pos' rest' (caps'.set idx (rest.take (pos' - pos))))
          pos rest caps := rfl

theorem run_star (p : Char → Bool) (k : Cont) : (Regex.star p).run k = starGreedy p k := by
  funext pos rest caps; rfl

theorem run_plus_nil (p : Char → Bool) (k : Cont) (pos : Nat) (caps : Caps) :
    (Regex.plus p).run k pos [] caps = none := rfl

theorem run_plus_cons (p : Char → Bool) (k : Cont) (pos : Nat) (c : Char) (cs : GoString)
    (caps : Caps) :
    (Regex.plus p).run k pos (c :: cs) caps
      = if p c = true then starGreedy p k (pos + 1) cs caps else none := rfl

theorem run_endText_nil (k : Cont) (pos : Nat) (caps : Caps) :
    Regex.endText.run k pos [] caps = k pos [] caps := rfl

theorem run_endText_cons (k : Cont) (pos : Nat) (c : Char) (cs : GoString) (caps : Caps) :
    Regex.endText.run k pos (c :: cs) caps = none := rfl

theorem run_beginText (k : Cont) (pos : Nat) (rest : GoString) (caps : Caps) :
    Regex.beginText.run k pos rest caps = if pos = 0 then k pos rest caps else none := rfl

theorem starGreedy_cons_pos (p : Char → Bool) (k : Cont) (pos : Nat) (c : Char)
    (cs : GoString) (caps : Caps) (hc : p c = true) :
    starGreedy p k pos (c :: cs) caps
      = (starGreedy p k (pos + 1) cs caps <|> k pos (c :: cs) caps) := by
  simp [starGreedy, hc]

theorem starGreedy_stop (p : Char → Bool) (k : Cont) (pos : Nat) (b : GoString) (caps : Caps)
    (hb : ∀ c cs, b = c :: cs → p c = false) :
    starGreedy p k pos b caps = k pos b caps := by
  cases b with
  | nil => rfl
  | cons c cs => simp [starGreedy, hb c cs rfl]

theorem starGreedy_append (p : Char → Bool) (k : Cont)
    (hk : ∀ pos c cs caps, p c = true → k pos (c :: cs) caps = none)
    (a b : GoString) (ha : ∀ c ∈ a, p c = true) (pos : Nat) (caps : Caps) :
    starGreedy p k pos (a ++ b) caps = starGreedy p k (pos + a.length) b caps := by
  induction a generalizing pos with
  | nil => simp
  | cons c cs ih =>
    have hc : p c = true := ha c (List.mem_cons_self _ _)
    have hcs : ∀ x ∈ cs, p x = true := fun x hx => ha x (List.mem_cons_of_mem _ hx)
    rw [List.cons_append, starGreedy_cons_pos p k pos c (cs ++ b) caps hc,
      hk pos c (cs ++ b) caps hc, Option.orElse_none, ih hcs (pos + 1)]
    have : pos + 1 + cs.length = pos + (c :: cs).length := by
      simp only [List.length_cons]; omega
    rw [this]

/-- Greedy repetition up to the first character outside the class, when the
continuation cannot start with a character of the class. -/
theorem starGreedy_span (p : Char → Bool) (k : Cont)
    (hk : ∀ pos c cs caps, p c = true → k pos (c :: cs) caps = none)
    (t : GoString) (pos : Nat) (caps : Caps) :
    starGreedy p k pos t caps
      = k (pos + (t.takeWhile p).length) (t.dropWhile p) caps := by
  have h := starGreedy_append p k hk (t.takeWhile p) (t.dropWhile p)
    (fun c hc => (List.mem_takeWhile_imp hc)) pos caps
  rw [List.takeWhile_append_dropWhile] at h
  rw [h]
  apply starGreedy_stop
  intro c cs hcs
  have := List.head?_dropWhile_not p t
  rw [hcs] at this
  simpa using this

/-- Greedy repetition before a continuation that accepts only at the end of
the text. -/
theorem starGreedy_end (p : Char → Bool) (k : Cont)
    (hk : ∀ pos c cs caps, k pos (c :: cs) caps = none)
    (t : GoString) (pos : Nat) (caps : Caps) :
    starGreedy p k pos t caps
      = if t.all p = true then k (pos + t.length) [] caps else none := by
  induction t generalizing pos with
  | nil => simp [starGreedy]
  | cons c cs ih =>
    by_cases hc : p c = true
    · rw [starGreedy_cons_pos p k pos c cs caps hc, hk, Option.orElse_none, ih]
      have : pos + 1 + cs.length = pos + (c :: cs).length := by
        simp only [List.length_cons]; omega
      rw [this]
      simp [hc]
    · simp [starGreedy, hc, hk]

theorem sectionRegexp_eq :
    sectionRegexp
      = .seq .beginText (.seq (.opt (.group 1 "optional" (.chr (· == '^')))) nameTail) := rfl

theorem run_ownersTail (pos : Nat) (rest : GoString) (caps : Caps) :
    ownersTail.run accept pos rest caps
      = if rest.all anyChar = true then some (pos + rest.length, caps.set 4 rest) else none := by
  unfold ownersTail
  rw [run_seq, run_group, run_star, starGreedy_end]
  · simp [run_endText_nil, accept]
  · intro pos c cs caps; rfl

theorem run_spaceTail (pos : Nat) (rest : GoString) (caps : Caps) :
    spaceTail.run accept pos rest caps
      = if rest.all anyChar = true then
          some (pos + rest.length, caps.set 4 (stripSpace rest))
        else none := by
  unfold spaceTail
  rw [run_seq, run_opt]
  cases rest with
  | nil => simp [run_chr_nil, run_ownersTail, stripSpace]
  | cons c u =>
    by_cases hc : c = ' '
    · subst hc
      simp only [run_chr_cons, run_ownersTail, stripSpace]
      by_cases hu : u.all anyChar = true
      · have h1 : pos + 1 + u.length = pos + (' ' :: u).length := by
          simp only [List.length_cons]; omega
        rw [h1]
        simp [hu, anyChar]
      · simp [hu, anyChar]
    · simp [run_chr_cons, run_ownersTail, stripSpace, hc]

theorem take_length_takeWhile (p : Char → Bool) (t : GoString) :
    t.take (t.takeWhile p).length = t.takeWhile p := by
  have h : (t.takeWhile p ++ t.dropWhile p).take (t.takeWhile p).length = t.takeWhile p :=
    List.take_left' rfl
  rwa [List.takeWhile_append_dropWhile] at h

/-- A bracket group of the pattern, run before the continuation `K`. -/
theorem run_bracket (p : Char → Bool) (hp : p ']' = false) (idx : Nat) (name : String)
    (K : Cont) (pos : Nat) (rest : GoString) (caps : Caps) :
    (Regex.chr (· == '[')).run
        ((Regex.group idx name (.plus p)).run ((Regex.chr (· == ']')).run K)) pos rest caps
      = (splitBracket p rest).bind
          (fun x => K (pos + (x.1.length + 2)) x.2 (caps.set idx x.1)) := by
  cases rest with
  | nil => simp [run_chr_nil, splitBracket]
  | cons c u =>
    by_cases hc : c = '['
    swap
    · simp [run_chr_cons, splitBracket, hc]
    subst hc
    rw [run_chr_cons, run_group]
    cases u with
    | nil => simp [run_plus_nil, splitBracket]
    | cons d u' =>
      by_cases hd : p d = true
      swap
      · simp [run_plus_cons, splitBracket, hd]
      rw [run_plus_cons, starGreedy_span]
      swap
      · intro pos' c cs caps' hc
        have : c ≠ ']' := by
          rintro rfl
          rw [hp] at hc
          exact Bool.noConfusion hc
        simp [run_chr_cons, this]
      simp only [splitBracket, List.takeWhile_cons_of_pos hd, List.dropWhile_cons_of_pos hd]
      cases hdw : List.dropWhile p u' with
      | nil => simp [run_chr_nil, hd]
      | cons e v =>
        by_cases he : e = ']'
        swap
        · simp [run_chr_cons, he, hd]
        subst he
        have h1 : pos + 1 + 1 + (List.takeWhile p u').length - (pos + 1)
            = (List.takeWhile p u').length + 1 := by omega
        have h2 : pos + 1 + 1 + (List.takeWhile p u').length + 1
            = pos + ((List.takeWhile p u').length + 1 + 2) := by omega
        simp [run_chr_cons, hd, h1, h2, take_length_takeWhile]

theorem digitChar_close : digitChar ']' = false := by decide

theorem nameChar_close : nameChar ']' = false := by decide

theorem run_approvalsGroup (K : Cont) (pos : Nat) (rest : GoString) (caps : Caps) :
    approvalsGroup.run K pos rest caps
      = (splitBracket digitChar rest).bind
          (fun x => K (pos + (x.1.length + 2)) x.2 (caps.set 3 x.1)) := by
  unfold approvalsGroup
  rw [run_seq, run_seq]
  exact run_bracket digitChar digitChar_close 3 "approvals" K pos rest caps

theorem anyChar_of_digitChar {c : Char} (h : digitChar c = true) : anyChar c = true := by
  have : c ≠ '\n' := by
    rintro rfl
    simp [digitChar, Char.isDigit] at h
  simp [anyChar, this]

theorem splitBracket_of_shape (p : Char → Bool) (hp : p ']' = false) (ds v : GoString)
    (hne : ds ≠ []) (hds : ∀ c ∈ ds, p c = true) :
    splitBracket p ('[' :: (ds ++ ']' :: v)) = some (ds, v) := by
  have htw : (ds ++ ']' :: v).takeWhile p = ds := by
    rw [List.takeWhile_append_of_pos hds]
    simp [hp]
  have hdw : (ds ++ ']' :: v).dropWhile p = ']' :: v := by
    rw [List.dropWhile_append_of_pos hds]
    simp [hp]
  cases ds with
  | nil => exact absurd rfl hne
  | cons d ds' =>
    simp only [splitBracket, htw, hdw]
    simp

theorem shape_of_splitBracket (p : Char → Bool) (t ds v : GoString)
    (h : splitBracket p t = some (ds, v)) :
    t = '[' :: (ds ++ ']' :: v) ∧ ds ≠ [] ∧ ∀ c ∈ ds, p c = true := by
  cases t with
  | nil => simp [splitBracket] at h
  | cons c u =>
    by_cases hc : c = '['
    swap
    · simp [splitBracket, hc] at h
    subst hc
    have hu := List.takeWhile_append_dropWhile p u
    have hall : ∀ c ∈ u.takeWhile p, p c = true :=
      fun c hc => List.mem_takeWhile_imp hc
    simp only [splitBracket] at h
    cases htw : u.takeWhile p with
    | nil => simp [htw] at h
    | cons d ds' =>
      cases hdw : u.dropWhile p with
      | nil => simp [htw, hdw] at h
      | cons e v' =>
        by_cases he : e = ']'
        swap
        · simp [htw, hdw, he] at h
        subst he
        simp [htw, hdw] at h
        obtain ⟨h1, h2⟩ := h
        subst h1 h2
        rw [htw, hdw] at hu
        rw [htw] at hall
        exact ⟨by rw [← hu], by simp, hall⟩

theorem run_approvalsTail (pos : Nat) (rest : GoString) (caps : Caps) :
    approvalsTail.run accept pos rest caps
      = if rest.all anyChar = true then some (pos + rest.length, tailCaps caps rest)
        else none := by
  unfold approvalsTail
  rw [run_seq, run_opt, run_approvalsGroup]
  cases hs : splitBracket digitChar rest with
  | none => simp [run_spaceTail, tailCaps, hs]
  | some x =>
    obtain ⟨ds, v⟩ := x
    obtain ⟨h1, _, h3⟩ := shape_of_splitBracket digitChar rest ds v hs
    have hall : rest.all anyChar = v.all anyChar := by
      subst h1
      have : ∀ c ∈ ds, anyChar c = true := fun c hc => anyChar_of_digitChar (h3 c hc)
      simp only [List.all_cons, List.all_append]
      rw [List.all_eq_true.mpr this]
      simp [anyChar]
    have hlen : pos + (ds.length + 2) + v.length = pos + rest.length := by
      subst h1
      simp only [List.length_cons, List.length_append]; omega
    simp only [Option.bind, run_spaceTail, tailCaps, hs, hall]
    by_cases hv : v.all anyChar = true
    · simp [hv, hlen]
    · simp [hv]

theorem run_nameTail (pos : Nat) (rest : GoString) (caps : Caps) :
    nameTail.run accept pos rest caps
      = (splitBracket nameChar rest).bind (fun x =>
          if x.2.all anyChar = true then
            some (pos + rest.length, tailCaps (caps.set 2 x.1) x.2)
          else none) := by
  unfold nameTail
  rw [run_seq, run_seq, run_seq, run_bracket nameChar nameChar_close]
  cases hs : splitBracket nameChar rest with
  | none => rfl
  | some x =>
    obtain ⟨name, tail⟩ := x
    obtain ⟨h1, _, _⟩ := shape_of_splitBracket nameChar rest name tail hs
    have hlen : pos + (name.length + 2) + tail.length = pos + rest.length := by
      subst h1
      simp only [List.length_cons, List.length_append]; omega
    simp only [Option.bind, run_approvalsTail, hlen]

theorem caps_init :
    List.replicate (sectionRegexp.NumSubexp + 1) ([] : GoString) = [[], [], [], [], []] := rfl

theorem tailCaps_init (w pre name tail : GoString) :
    (tailCaps [[], pre, name, [], []] tail).set 0 w
      = [w, pre, name, approvalsOf tail, ownersOf tail] := by
  unfold tailCaps approvalsOf ownersOf
  cases splitBracket digitChar tail <;> simp

theorem matchAt_pos (pos : Nat) (hpos : pos ≠ 0) (t : GoString) :
    matchAt sectionRegexp pos t = none := by
  unfold matchAt
  rw [sectionRegexp_eq, run_seq, run_beginText, if_neg hpos]
  rfl

theorem findFrom_pos (t : GoString) : ∀ pos : Nat, pos ≠ 0 → findFrom sectionRegexp pos t = none := by
  induction t with
  | nil => intro pos hpos; simp [findFrom, matchAt_pos pos hpos]
  | cons c cs ih =>
    intro pos hpos
    simp [findFrom, matchAt_pos pos hpos, ih (pos + 1) (by omega)]

theorem run_sectionRegexp (line : GoString) (caps : Caps) :
    sectionRegexp.run accept 0 line caps
      = match line with
        | [] => none
        | c :: u =>
          if c = '^' then nameTail.run accept 1 u (caps.set 1 ['^'])
          else nameTail.run accept 0 (c :: u) caps := by
  rw [sectionRegexp_eq, run_seq, run_beginText, if_pos rfl, run_seq, run_opt, run_group]
  cases line with
  | nil => simp [run_chr_nil, run_nameTail, splitBracket]
  | cons c u =>
    by_cases hc : c = '^'
    · subst hc
      simp [run_chr_cons, run_nameTail, splitBracket]
    · simp [run_chr_cons, hc]

/-- The section pattern finds on a line exactly the fields computed directly. -/
theorem FindStringSubmatch_sectionRegexp (line : GoString) :
    sectionRegexp.FindStringSubmatch line = headerFields line := by
  unfold Regex.FindStringSubmatch
  cases line with
  | nil => simp [findFrom, matchAt, run_sectionRegexp, headerFields]
  | cons c u =>
    simp only [findFrom, findFrom_pos u 1 (by omega), Option.orElse_none, matchAt,
      run_sectionRegexp, caps_init, headerFields]
    by_cases hc : c = '^'
    · subst hc
      simp only [if_true, run_nameTail, beq_self_eq_true]
      cases hs : splitBracket nameChar u with
      | none => rfl
      | some x =>
        by_cases hx : x.2.all anyChar = true
        · simp [Option.bind, hx, tailCaps_init]
          omega
        · simp [Option.bind, hx]
    · have hc' : (c == '^') = false := by simpa using hc
      simp only [if_neg hc, run_nameTail, hc', Bool.false_eq_true, if_false]
      cases hs : splitBracket nameChar (c :: u) with
      | none => rfl
      | some x =>
        by_cases hx : x.2.all anyChar = true
        · simp [Option.bind, hx, tailCaps_init]
        · simp [Option.bind, hx]

theorem nameChar_iff (c : Char) : nameChar c = true ↔ (c ≠ '[' ∧ c ≠ ']' ∧ c ≠ '\n') := by
  simp [nameChar]
  tauto

theorem all_anyChar_iff (t : GoString) : t.all anyChar = true ↔ '\n' ∉ t := by
  simp only [List.all_eq_true, anyChar]
  constructor
  · intro h hmem
    simpa using h _ hmem
  · intro h c hc
    have : c ≠ '\n' := by
      rintro rfl
      exact h hc
    simp [this]

theorem headerFields_of_isHeader {line pre name tail : GoString}
    (h : IsHeader line pre name tail) :
    headerFields line = some [line, pre, name, approvalsOf tail, ownersOf tail] := by
  obtain ⟨hline, hpre, hne, hname, hnl⟩ := h
  have hsplit : splitBracket nameChar ('[' :: (name ++ ']' :: tail)) = some (name, tail) :=
    splitBracket_of_shape nameChar nameChar_close name tail hne
      (fun c hc => (nameChar_iff c).mpr (hname c hc))
  have htail : tail.all anyChar = true := by
    rw [all_anyChar_iff]
    intro hmem
    apply hnl
    rw [hline]
    simp [hmem]
  rcases hpre with rfl | rfl
  · subst hline
    simp only [List.nil_append, headerFields]
    have : ('[' == '^') = false := by decide
    simp only [this, Bool.false_eq_true, if_false, hsplit, Option.bind, htail, if_true]
  · subst hline
    simp only [List.cons_append, List.nil_append, headerFields]
    simp only [beq_self_eq_true, if_true, hsplit, Option.bind, htail]

theorem fields_of_bind {body w pre : GoString} {m : List GoString}
    (h : (splitBracket nameChar body).bind (fun x =>
        if x.2.all anyChar = true then some [w, pre, x.1, approvalsOf x.2, ownersOf x.2]
        else none) = some m) :
    ∃ name tail, body = '[' :: (name ++ ']' :: tail) ∧ name ≠ [] ∧
      (∀ c ∈ name, c ≠ '[' ∧ c ≠ ']' ∧ c ≠ '\n') ∧ '\n' ∉ body ∧
      m = [w, pre, name, approvalsOf tail, ownersOf tail] := by
  cases hs : splitBracket nameChar body with
  | none => rw [hs] at h; exact Option.noConfusion h
  | some x =>
    obtain ⟨name, tail⟩ := x
    rw [hs] at h
    simp only [Option.bind] at h
    by_cases htail : tail.all anyChar = true
    swap
    · rw [if_neg htail] at h; exact Option.noConfusion h
    rw [if_pos htail] at h
    obtain ⟨hshape, hne, hall⟩ := shape_of_splitBracket nameChar _ name tail hs
    have hname : ∀ c ∈ name, c ≠ '[' ∧ c ≠ ']' ∧ c ≠ '\n' :=
      fun c hc => (nameChar_iff c).mp (hall c hc)
    refine ⟨name, tail, hshape, hne, hname, ?_, (Option.some.inj h).symm⟩
    rw [all_anyChar_iff] at htail
    rw [hshape]
    simp only [List.mem_cons, List.mem_append, not_or]
    exact ⟨by decide, fun hmem => (hname _ hmem).2.2 rfl, by decide, htail⟩

theorem isHeader_of_headerFields {line : GoString} {m : List GoString}
    (h : headerFields line = some m) :
    ∃ pre name tail, IsHeader line pre name tail ∧
      m = [line, pre, name, approvalsOf tail, ownersOf tail] := by
  cases line with
  | nil => simp [headerFields] at h
  | cons c u =>
    by_cases hc : c = '^'
    · subst hc
      simp only [headerFields, beq_self_eq_true, if_true] at h
      obtain ⟨name, tail, hshape, hne, hname, hnl, hm⟩ := fields_of_bind h
      refine ⟨['^'], name, tail, ⟨by simp [hshape], Or.inr rfl, hne, hname, ?_⟩, hm⟩
      simp only [List.mem_cons, not_or]
      exact ⟨by decide, hnl⟩
    · have hc' : (c == '^') = false := by simpa using hc
      simp only [headerFields, hc', Bool.false_eq_true, if_false] at h
      obtain ⟨name, tail, hshape, hne, hname, hnl, hm⟩ := fields_of_bind h
      exact ⟨[], name, tail, ⟨by simp [hshape], Or.inl rfl, hne, hname, hnl⟩, hm⟩

theorem tail_of_group {tail ds trailing : GoString} (h : ApprovalsGroup tail ds trailing) :
    approvalsOf tail = ds ∧ ownersOf tail = stripSpace trailing := by
  obtain ⟨h1, h2, h3⟩ := h
  have hs := splitBracket_of_shape digitChar digitChar_close ds trailing h2 h3
  rw [← h1] at hs
  simp [approvalsOf, ownersOf, hs]

theorem tail_of_noGroup {tail : GoString} (h : ¬ ∃ ds t, ApprovalsGroup tail ds t) :
    approvalsOf tail = [] ∧ ownersOf tail = stripSpace tail := by
  cases hs : splitBracket digitChar tail with
  | none => simp [approvalsOf, ownersOf, hs]
  | some x =>
    exact absurd ⟨x.1, x.2, shape_of_splitBracket digitChar tail x.1 x.2 hs⟩ h

theorem tail_of_parts {tail trailing : GoString} {approvals : Option GoString}
    (h : TailParts tail approvals trailing) :
    approvalsOf tail = approvals.getD [] ∧ ownersOf tail = stripSpace trailing := by
  rcases h with ⟨ds, rfl, hg⟩ | ⟨rfl, rfl, hn⟩
  · simpa using tail_of_group hg
  · simpa using tail_of_noGroup hn

theorem tailParts_exists (tail : GoString) : ∃ approvals trailing, TailParts tail approvals trailing := by
  by_cases h : ∃ ds t, ApprovalsGroup tail ds t
  · obtain ⟨ds, t, hg⟩ := h
    exact ⟨some ds, t, Or.inl ⟨ds, rfl, hg⟩⟩
  · exact ⟨none, tail, Or.inr ⟨rfl, rfl, h⟩⟩

theorem Atoi_digits (intSize : Nat) (ds : GoString) (hne : ds ≠ [])
    (hds : ∀ c ∈ ds, digitChar c = true) :
    Atoi intSize ds
      = if maxInt intSize < decimalValue ds then
          .error (.numError "Atoi" ds .ErrRange)
        else .ok (decimalValue ds : Int) := by
  cases ds with
  | nil => exact absurd rfl hne
  | cons d t =>
    have hd : digitChar d = true := hds d (List.mem_cons_self _ _)
    have h1 : (d == '-') = false := by
      have : d ≠ '-' := by
        rintro rfl
        simp [digitChar, Char.isDigit] at hd
      simpa using this
    have h2 : (d == '+') = false := by
      have : d ≠ '+' := by
        rintro rfl
        simp [digitChar, Char.isDigit] at hd
      simpa using this
    have h3 : (d :: t).all digitChar = true := List.all_eq_true.mpr hds
    simp only [Atoi, h1, h2, Bool.or_self, Bool.false_eq_true, if_false, h3]
    simp

theorem TrimSpace_eq_nil_iff (t : GoString) : TrimSpace t = [] ↔ Blank t := by
  unfold TrimSpace Blank
  rw [List.reverse_eq_nil_iff, List.dropWhile_eq_nil_iff]
  constructor
  · intro h
    have hnil : t.dropWhile isSpace = [] := by
      cases hd : t.dropWhile isSpace with
      | nil => rfl
      | cons c cs =>
        have h1 := List.head?_dropWhile_not isSpace t
        rw [hd] at h1 h
        have h2 : isSpace c = true := h c (by simp)
        simp [h2] at h1
    exact List.dropWhile_eq_nil_iff.mp hnil
  · intro h
    rw [List.dropWhile_eq_nil_iff.mpr h]
    simp

theorem subexpIndex_optional : (sectionRegexp.SubexpIndex "optional").toNat = 1 := by decide

theorem subexpIndex_name : (sectionRegexp.SubexpIndex "name").toNat = 2 := by decide

theorem subexpIndex_approvals : (sectionRegexp.SubexpIndex "approvals").toNat = 3 := by decide

theorem subexpIndex_owners : (sectionRegexp.SubexpIndex "owners").toNat = 4 := by decide

/-- What `parseSection` does on a header, by the parts of the header. -/
theorem parseSection_of_parts {parseOptions ρ : Type} (intSize : Nat)
    (parseRule : GoString → parseOptions → Except Error (Rule ρ)) (opts : parseOptions)
    {line pre name tail trailing : GoString} {approvals : Option GoString}
    (hd : IsHeader line pre name tail) (ht : TailParts tail approvals trailing) :
    parseSection intSize parseRule line opts
      = match approvals with
        | some ds =>
          if maxInt intSize < decimalValue ds then
            .error (.wrapf approvalsMsg (.numError "Atoi" ds .ErrRange))
          else
            withOwners parseRule opts (decide (pre = ['^'])) name (decimalValue ds)
              (stripSpace trailing)
        | none =>
          withOwners parseRule opts (decide (pre = ['^'])) name 1 (stripSpace trailing) := by
  obtain ⟨ha, ho⟩ := tail_of_parts ht
  unfold parseSection
  rw [FindStringSubmatch_sectionRegexp, headerFields_of_isHeader hd, ha, ho]
  simp only [subexpIndex_optional, subexpIndex_name, subexpIndex_approvals, subexpIndex_owners,
    List.length_cons, List.length_nil, List.getD_cons_succ, List.getD_cons_zero]
  rcases ht with ⟨ds, rfl, hg⟩ | ⟨rfl, rfl, hn⟩
  · obtain ⟨_, hne, hds⟩ := hg
    simp only [Option.getD_some, ne_eq, hne, not_false_eq_true, if_true,
      Atoi_digits intSize ds hne hds]
    by_cases hr : maxInt intSize < decimalValue ds
    · simp [hr]
    · simp only [hr, if_false, withOwners, TrimSpace_eq_nil_iff]
      by_cases hb : Blank (stripSpace trailing)
      · simp [hb]
      · simp only [hb, not_false_eq_true, if_true, if_false]
        cases parseRule ("/* ".toList ++ stripSpace trailing) opts <;> rfl
  · simp only [Option.getD_none, ne_eq, not_true_eq_false, if_false, withOwners,
      TrimSpace_eq_nil_iff]
    by_cases hb : Blank (stripSpace trailing)
    · simp [hb]
    · simp only [hb, not_false_eq_true, if_true, if_false]

theorem parseSection_of_none {parseOptions ρ : Type} (intSize : Nat)
    (parseRule : GoString → parseOptions → Except Error (Rule ρ)) (opts : parseOptions)
    {line : GoString} (h : headerFields line = none) :
    parseSection intSize parseRule line opts = .error .ErrNoMatch := by
  unfold parseSection
  rw [FindStringSubmatch_sectionRegexp, h]

theorem withOwners_ok {parseOptions ρ : Type}
    {parseRule : GoString → parseOptions → Except Error (Rule ρ)} {opts : parseOptions}
    {optional : Bool} {name : GoString} {approvals : Int} {ownersStr : GoString}
    {sec : Section}
    (h : withOwners parseRule opts optional name approvals ownersStr = .ok sec) :
    sec.Optional = optional ∧ sec.Name = name ∧ sec.Approvals = approvals ∧
      (Blank ownersStr → sec.Owners = []) ∧
      (¬ Blank ownersStr →
        ∃ r, parseRule ("/* ".toList ++ ownersStr) opts = .ok r ∧ sec.Owners = r.Owners) := by
  unfold withOwners at h
  by_cases hb : Blank ownersStr
  · rw [if_pos hb] at h
    cases h
    exact ⟨rfl, rfl, rfl, fun _ => rfl, fun hn => absurd hb hn⟩
  · rw [if_neg hb] at h
    cases hr : parseRule ("/* ".toList ++ ownersStr) opts with
    | error e => rw [hr] at h; cases h
    | ok r =>
      rw [hr] at h
      cases h
      exact ⟨rfl, rfl, rfl, fun hb' => absurd hb' hb, fun _ => ⟨r, rfl, rfl⟩⟩

theorem withOwners_error {parseOptions ρ : Type}
    {parseRule : GoString → parseOptions → Except Error (Rule ρ)} {opts : parseOptions}
    {optional : Bool} {name : GoString} {approvals : Int} {ownersStr : GoString} {e : Error}
    (h : withOwners parseRule opts optional name approvals ownersStr = .error e) :
    ∃ cause, e = .wrapf ownersMsg cause := by
  unfold withOwners at h
  by_cases hb : Blank ownersStr
  · rw [if_pos hb] at h
    cases h
  · rw [if_neg hb] at h
    cases hr : parseRule ("/* ".toList ++ ownersStr) opts with
    | error e' => rw [hr] at h; cases h; exact ⟨e', rfl⟩
    | ok r => rw [hr] at h; cases h

theorem parseSection_in_range {parseOptions ρ : Type} (intSize : Nat)
    (parseRule : GoString → parseOptions → Except Error (Rule ρ)) (opts : parseOptions)
    {line pre name tail trailing : GoString} {approvals : Option GoString}
    (hd : IsHeader line pre name tail) (ht : TailParts tail approvals trailing)
    (hr : ∀ ds, approvals = some ds → decimalValue ds ≤ maxInt intSize) :
    parseSection intSize parseRule line opts
      = withOwners parseRule opts (decide (pre = ['^'])) name (approvalsNumber approvals)
          (stripSpace trailing) := by
  rw [parseSection_of_parts intSize parseRule opts hd ht]
  cases approvals with
  | none => rfl
  | some ds =>
    have : ¬ maxInt intSize < decimalValue ds := Nat.not_lt.mpr (hr ds rfl)
    simp only [this, if_false, approvalsNumber]

theorem parseSection_ok_parts {parseOptions ρ : Type} {intSize : Nat}
    {parseRule : GoString → parseOptions → Except Error (Rule ρ)} {opts : parseOptions}
    {line pre name tail trailing : GoString} {approvals : Option GoString} {sec : Section}
    (h : parseSection intSize parseRule line opts = .ok sec)
    (hd : IsHeader line pre name tail) (ht : TailParts tail approvals trailing) :
    (∀ ds, approvals = some ds → decimalValue ds ≤ maxInt intSize) ∧
      withOwners parseRule opts (decide (pre = ['^'])) name (approvalsNumber approvals)
        (stripSpace trailing) = .ok sec := by
  have hr : ∀ ds, approvals = some ds → decimalValue ds ≤ maxInt intSize := by
    intro ds hds
    subst hds
    by_contra hlt
    rw [parseSection_of_parts intSize parseRule opts hd ht] at h
    simp only [Nat.not_le.mp hlt, if_true] at h
    cases h
  exact ⟨hr, by rw [← parseSection_in_range intSize parseRule opts hd ht hr]; exact h⟩

theorem parseSection_ok_header {parseOptions ρ : Type} {intSize : Nat}
    {parseRule : GoString → parseOptions → Except Error (Rule ρ)} {opts : parseOptions}
    {line : GoString} {sec : Section}
    (h : parseSection intSize parseRule line opts = .ok sec) : MatchesGrammar line := by
  cases hf : headerFields line with
  | none =>
    rw [parseSection_of_none intSize parseRule opts hf] at h
    cases h
  | some m =>
    obtain ⟨pre, name, tail, hd, _⟩ := isHeader_of_headerFields hf
    exact ⟨pre, name, tail, hd⟩

theorem parseSection_header_ne_noMatch {parseOptions ρ : Type} (intSize : Nat)
    (parseRule : GoString → parseOptions → Except Error (Rule ρ)) (opts : parseOptions)
    {line : GoString} (hm : MatchesGrammar line) :
    parseSection intSize parseRule line opts ≠ .error .ErrNoMatch := by
  obtain ⟨pre, name, tail, hd⟩ := hm
  obtain ⟨approvals, trailing, ht⟩ := tailParts_exists tail
  rw [parseSection_of_parts intSize parseRule opts hd ht]
  intro h
  cases approvals with
  | none =>
    obtain ⟨cause, hc⟩ := withOwners_error h
    cases hc
  | some ds =>
    by_cases hlt : maxInt intSize < decimalValue ds
    · simp only [hlt, if_true] at h
      cases h
    · simp only [hlt, if_false] at h
      obtain ⟨cause, hc⟩ := withOwners_error h
      cases hc

theorem head_of_isHeader {line pre name tail : GoString} (hd : IsHeader line pre name tail) :
    line.head? = some '^' ↔ pre = ['^'] := by
  obtain ⟨hline, hpre, _⟩ := hd
  subst hline
  rcases hpre with rfl | rfl
  · simp
  · simp

theorem blank_stripSpace {t : GoString} (h : Blank t) : Blank (stripSpace t) := by
  cases t with
  | nil => exact h
  | cons c u =>
    show Blank (if (c == ' ') = true then u else c :: u)
    by_cases hc : (c == ' ') = true
    · rw [if_pos hc]
      exact fun x hx => h x (List.mem_cons_of_mem _ hx)
    · rw [if_neg hc]
      exact h

theorem first_split {x : Char} (a a' b b' : GoString) (ha : x ∉ a) (ha' : x ∉ a')
    (h : a ++ x :: b = a' ++ x :: b') : a = a' ∧ b = b' := by
  induction a generalizing a' with
  | nil =>
    cases a' with
    | nil => simpa using h
    | cons c cs =>
      simp only [List.nil_append, List.cons_append, List.cons.injEq] at h
      exact absurd (h.1 ▸ List.mem_cons_self _ _) ha'
  | cons d ds ih =>
    cases a' with
    | nil =>
      simp only [List.nil_append, List.cons_append, List.cons.injEq] at h
      exact absurd (h.1 ▸ List.mem_cons_self _ _) ha
    | cons c cs =>
      simp only [List.cons_append, List.cons.injEq] at h
      obtain ⟨h1, h2⟩ := ih cs (fun hm => ha (List.mem_cons_of_mem _ hm))
        (fun hm => ha' (List.mem_cons_of_mem _ hm)) h.2
      exact ⟨by rw [h.1, h1], h2⟩

/-! ## Lemmas on rendering and on addFromSection -/

theorem digitChar_of_lt (d : Nat) (h : d < 10) :
    digitChar (Nat.digitChar d) = true ∧ (Nat.digitChar d).toNat - '0'.toNat = d := by
  interval_cases d <;> exact ⟨by decide, by decide⟩

theorem decimalValue_snoc (ds : GoString) (c : Char) :
    decimalValue (ds ++ [c]) = 10 * decimalValue ds + (c.toNat - '0'.toNat) := by
  simp [decimalValue, List.foldl_append]

theorem toDigitsCore_digits (fuel : Nat) : ∀ (n : Nat) (acc : GoString), n < fuel →
    ∃ ds, Nat.toDigitsCore 10 fuel n acc = ds ++ acc ∧ ds ≠ [] ∧
      (∀ c ∈ ds, digitChar c = true) ∧ decimalValue ds = n := by
  induction fuel with
  | zero => intro n acc h; exact absurd h (Nat.not_lt_zero n)
  | succ fuel ih =>
    intro n acc h
    have hmod : n % 10 < 10 := Nat.mod_lt n (by decide)
    obtain ⟨hd1, hd2⟩ := digitChar_of_lt (n % 10) hmod
    by_cases hq : n / 10 = 0
    · refine ⟨[Nat.digitChar (n % 10)], by simp [Nat.toDigitsCore, hq], by simp, ?_, ?_⟩
      · intro c hc
        rw [List.mem_singleton.mp hc]
        exact hd1
      · have hlt : n < 10 := by omega
        have : decimalValue [Nat.digitChar (n % 10)] = (Nat.digitChar (n % 10)).toNat - '0'.toNat := by
          simp [decimalValue]
        rw [this, hd2]
        exact Nat.mod_eq_of_lt hlt
    · have hlt : n / 10 < fuel := by omega
      obtain ⟨ds, h1, h2, h3, h4⟩ := ih (n / 10) (Nat.digitChar (n % 10) :: acc) hlt
      refine ⟨ds ++ [Nat.digitChar (n % 10)], by simp [Nat.toDigitsCore, hq, h1], by simp, ?_, ?_⟩
      · intro c hc
        rcases List.mem_append.mp hc with hc | hc
        · exact h3 c hc
        · rw [List.mem_singleton.mp hc]
          exact hd1
      · rw [decimalValue_snoc, h4, hd2]
        omega

theorem decimal_digits (n : Nat) :
    decimal n ≠ [] ∧ (∀ c ∈ decimal n, digitChar c = true) ∧ decimalValue (decimal n) = n := by
  obtain ⟨ds, h1, h2, h3, h4⟩ := toDigitsCore_digits (n + 1) n [] (Nat.lt_succ_self n)
  have : decimal n = ds := by
    unfold decimal Nat.toDigits
    rw [h1, List.append_nil]
  rw [this]
  exact ⟨h2, h3, h4⟩

theorem addFromSection_eq {ρ : Type} (r : Rule ρ) (s : Section) :
    addFromSection r s
      = ({ Optional := s.Optional,
           Owners := if r.Owners = [] ∧ s.Owners ≠ [] then s.Owners else r.Owners,
           rest := r.rest }, s) := by
  show (if r.Owners.length = 0 ∧ s.Owners.length > 0 then
      (({ Optional := s.Optional, Owners := s.Owners, rest := r.rest } : Rule ρ), s)
    else (({ Optional := s.Optional, Owners := r.Owners, rest := r.rest } : Rule ρ), s)) = _
  by_cases hc : r.Owners = [] ∧ s.Owners ≠ []
  · have hc' : r.Owners.length = 0 ∧ s.Owners.length > 0 :=
      ⟨by rw [hc.1]; rfl, List.length_pos.mpr hc.2⟩
    rw [if_pos hc, if_pos hc']
  · have hc' : ¬ (r.Owners.length = 0 ∧ s.Owners.length > 0) := by
      rintro ⟨h1, h2⟩
      exact hc ⟨List.length_eq_zero.mp h1, List.length_pos.mp h2⟩
    rw [if_neg hc, if_neg hc']

theorem withOwners_error_cause {parseOptions ρ : Type}
    {parseRule : GoString → parseOptions → Except Error (Rule ρ)} {opts : parseOptions}
    {optional : Bool} {name : GoString} {approvals : Int} {ownersStr : GoString} {e : Error}
    (h : withOwners parseRule opts optional name approvals ownersStr = .error e) :
    ∃ cause, parseRule ("/* ".toList ++ ownersStr) opts = .error cause ∧
      e = .wrapf ownersMsg cause := by
  unfold withOwners at h
  by_cases hb : Blank ownersStr
  · rw [if_pos hb] at h
    cases h
  · rw [if_neg hb] at h
    cases hr : parseRule ("/* ".toList ++ ownersStr) opts with
    | error e' => rw [hr] at h; cases h; exact ⟨e', rfl, rfl⟩
    | ok r => rw [hr] at h; cases h

theorem length_of_headerFields {line : GoString} {m : List GoString}
    (h : headerFields line = some m) : m.length = 5 := by
  obtain ⟨pre, name, tail, _, hm⟩ := isHeader_of_headerFields h
  rw [hm]
  rfl

theorem isHeader_rendered (opt : Bool) (name tail : GoString) (hne : name ≠ [])
    (hname : ∀ c ∈ name, c ≠ '[' ∧ c ≠ ']' ∧ c ≠ '\n') (htail : '\n' ∉ tail) :
    IsHeader ((if opt = true then ['^'] else []) ++ '[' :: (name ++ ']' :: tail))
      (if opt = true then ['^'] else []) name tail := by
  refine ⟨rfl, ?_, hne, hname, ?_⟩
  · cases opt
    · exact Or.inl rfl
    · exact Or.inr rfl
  · have h1 : '\n' ∉ '[' :: (name ++ ']' :: tail) := by
      simp only [List.mem_cons, List.mem_append, not_or]
      exact ⟨by decide, fun hm => (hname _ hm).2.2 rfl, by decide, htail⟩
    cases opt
    · simpa using h1
    · simp only [if_true, List.cons_append, List.nil_append, List.mem_cons, not_or]
      exact ⟨by decide, by simpa using h1⟩

/-! ## The claims about parseSection -/

/-- C1: `parseSection` fails with `ErrNoMatch` exactly when the line does not
match the section grammar in full (an optional caret, a bracket, one or more
characters that are no bracket and no newline, a closing bracket, any
remainder, and no newline in the line).  In particular a line with a newline
in it and a line whose first character is neither the caret nor the opening
bracket are `ErrNoMatch`. -/
theorem parseSection_noMatch_iff {parseOptions ρ : Type} (intSize : Nat)
    (parseRule : GoString → parseOptions → Except Error (Rule ρ)) (opts : parseOptions)
    (line : GoString) :
    (parseSection intSize parseRule line opts = .error .ErrNoMatch ↔ ¬ MatchesGrammar line) ∧
    ('\n' ∈ line → parseSection intSize parseRule line opts = .error .ErrNoMatch) ∧
    (∀ c rest, line = c :: rest → c ≠ '^' → c ≠ '[' →
      parseSection intSize parseRule line opts = .error .ErrNoMatch) := by
  have hiff : parseSection intSize parseRule line opts = .error .ErrNoMatch ↔
      ¬ MatchesGrammar line := by
    constructor
    · intro h hm
      exact parseSection_header_ne_noMatch intSize parseRule opts hm h
    · intro hm
      cases hf : headerFields line with
      | none => exact parseSection_of_none intSize parseRule opts hf
      | some m =>
        obtain ⟨pre, name, tail, hd, _⟩ := isHeader_of_headerFields hf
        exact absurd ⟨pre, name, tail, hd⟩ hm
  refine ⟨hiff, ?_, ?_⟩
  · intro hnl
    apply hiff.mpr
    rintro ⟨pre, name, tail, hd⟩
    exact hd.2.2.2.2 hnl
  · intro c rest hline h1 h2
    apply hiff.mpr
    rintro ⟨pre, name, tail, hd⟩
    obtain ⟨hl, hpre, _⟩ := hd
    rw [hline] at hl
    rcases hpre with rfl | rfl
    · simp only [List.nil_append, List.cons.injEq] at hl
      exact h2 hl.1
    · simp only [List.cons_append, List.nil_append, List.cons.injEq] at hl
      exact h1 hl.1

/-- An instance of C1: a line with a space before the bracket is no match, and
a plain header is not reported as no match. -/
theorem parseSection_noMatch_iff_witness :
    parseSection 64 echoRule " [A]".toList () = .error .ErrNoMatch ∧
    parseSection 64 echoRule "[A]".toList () ≠ .error .ErrNoMatch :=
  ⟨(parseSection_noMatch_iff 64 echoRule () " [A]".toList).2.2 ' ' "[A]".toList rfl
      (by decide) (by decide),
   fun h => (parseSection_noMatch_iff 64 echoRule () "[A]".toList).1.mp h
      ⟨[], ['A'], [], rfl, Or.inl rfl, by decide, by decide, by decide⟩⟩

/-- C2: when `parseSection` succeeds, the section is optional if and only if
the line begins with a caret. -/
theorem parseSection_optional {parseOptions ρ : Type} (intSize : Nat)
    (parseRule : GoString → parseOptions → Except Error (Rule ρ)) (opts : parseOptions)
    (line : GoString) (sec : Section)
    (h : parseSection intSize parseRule line opts = .ok sec) :
    sec.Optional = true ↔ line.head? = some '^' := by
  obtain ⟨pre, name, tail, hd⟩ := parseSection_ok_header h
  obtain ⟨approvals, trailing, ht⟩ := tailParts_exists tail
  obtain ⟨hopt, _⟩ := withOwners_ok (parseSection_ok_parts h hd ht).2
  rw [hopt, head_of_isHeader hd]
  simp

/-- An instance of C2, on a header with a caret. -/
theorem parseSection_optional_witness :
    parseSection 64 echoRule "^[Optional Section]".toList ()
        = .ok ⟨true, "Optional Section".toList, 1, []⟩ ∧
      "^[Optional Section]".toList.head? = some '^' :=
  ⟨rfl, (parseSection_optional 64 echoRule () "^[Optional Section]".toList
    ⟨true, "Optional Section".toList, 1, []⟩ rfl).mp rfl⟩

/-- C3: when `parseSection` succeeds, the approvals number is the decimal
value of the digits of the approvals group when the name's closing bracket is
at once followed by such a group (a bracket, one or more digits, a bracket),
and the group is then no part of the owners text; otherwise it is 1. -/
theorem parseSection_approvals {parseOptions ρ : Type} (intSize : Nat)
    (parseRule : GoString → parseOptions → Except Error (Rule ρ)) (opts : parseOptions)
    (line : GoString) (sec : Section)
    (h : parseSection intSize parseRule line opts = .ok sec) :
    MatchesGrammar line ∧
    ∀ pre name tail, IsHeader line pre name tail →
      (∀ ds trailing, ApprovalsGroup tail ds trailing →
        sec.Approvals = (decimalValue ds : Int) ∧
        (Blank (stripSpace trailing) → sec.Owners = []) ∧
        (¬ Blank (stripSpace trailing) →
          ∃ r, parseRule ("/* ".toList ++ stripSpace trailing) opts = .ok r ∧
            sec.Owners = r.Owners)) ∧
      ((¬ ∃ ds trailing, ApprovalsGroup tail ds trailing) → sec.Approvals = 1) := by
  refine ⟨parseSection_ok_header h, ?_⟩
  intro pre name tail hd
  constructor
  · intro ds trailing hg
    obtain ⟨_, _, happ, hb, hnb⟩ :=
      withOwners_ok (parseSection_ok_parts h hd (Or.inl ⟨ds, rfl, hg⟩)).2
    exact ⟨happ, hb, hnb⟩
  · intro hn
    obtain ⟨_, _, happ, _⟩ :=
      withOwners_ok (parseSection_ok_parts h hd (Or.inr ⟨rfl, rfl, hn⟩)).2
    exact happ

/-- An instance of C3: a literally written zero gives zero approvals. -/
theorem parseSection_approvals_witness :
    parseSection 64 echoRule "[A][0]".toList () = .ok ⟨false, ['A'], 0, []⟩ ∧
      Section.Approvals ⟨false, ['A'], 0, []⟩ = (decimalValue ['0'] : Int) :=
  ⟨rfl, ((parseSection_approvals 64 echoRule () "[A][0]".toList ⟨false, ['A'], 0, []⟩ rfl).2
    [] ['A'] "[0]".toList ⟨rfl, Or.inl rfl, by decide, by decide, by decide⟩).1
    ['0'] [] ⟨rfl, by decide, by decide⟩ |>.1⟩

/-- C4: when `parseSection` succeeds, the name of the section is the text
strictly between the first opening bracket and the first closing bracket of
the line, as it stands. -/
theorem parseSection_name {parseOptions ρ : Type} (intSize : Nat)
    (parseRule : GoString → parseOptions → Except Error (Rule ρ)) (opts : parseOptions)
    (line : GoString) (sec : Section)
    (h : parseSection intSize parseRule line opts = .ok sec) :
    (∃ a name b, line = a ++ '[' :: (name ++ ']' :: b) ∧ '[' ∉ a ∧ ']' ∉ a ∧ ']' ∉ name) ∧
    ∀ a name b, line = a ++ '[' :: (name ++ ']' :: b) → '[' ∉ a → ']' ∉ a → ']' ∉ name →
      sec.Name = name := by
  obtain ⟨pre, name₀, tail, hd⟩ := parseSection_ok_header h
  obtain ⟨approvals, trailing, ht⟩ := tailParts_exists tail
  obtain ⟨_, hname, _⟩ := withOwners_ok (parseSection_ok_parts h hd ht).2
  obtain ⟨hline, hpre, _, hchars, _⟩ := hd
  have hpre1 : '[' ∉ pre := by rcases hpre with rfl | rfl <;> decide
  have hpre2 : ']' ∉ pre := by rcases hpre with rfl | rfl <;> decide
  have hn₀ : ']' ∉ name₀ := fun hm => (hchars _ hm).2.1 rfl
  refine ⟨⟨pre, name₀, tail, hline, hpre1, hpre2, hn₀⟩, ?_⟩
  intro a name b hl ha _ hn
  rw [hline] at hl
  obtain ⟨_, h2⟩ := first_split pre a _ _ hpre1 ha hl
  obtain ⟨h3, _⟩ := first_split name₀ name tail b hn₀ hn h2
  rw [hname, h3]

/-- An instance of C4: the spaces inside the brackets stay in the name. -/
theorem parseSection_name_witness :
    parseSection 64 echoRule "^[ A b ][2]".toList () = .ok ⟨true, " A b ".toList, 2, []⟩ ∧
      Section.Name ⟨true, " A b ".toList, 2, []⟩ = " A b ".toList :=
  ⟨rfl, (parseSection_name 64 echoRule () "^[ A b ][2]".toList
    ⟨true, " A b ".toList, 2, []⟩ rfl).2 ['^'] " A b ".toList "[2]".toList rfl
    (by decide) (by decide) (by decide)⟩

/-- C5: on a header whose approvals group, if it has one, is in the range of
`int`, and whose trailing text after the name or the approvals group is blank,
`parseSection` succeeds with no owners, whatever the rule parser is: the
result does not depend on it. -/
theorem parseSection_blank_owners {parseOptions ρ : Type} (intSize : Nat)
    (parseRule : GoString → parseOptions → Except Error (Rule ρ)) (opts : parseOptions)
    (line pre name tail trailing : GoString) (approvals : Option GoString)
    (hd : IsHeader line pre name tail) (ht : TailParts tail approvals trailing)
    (hr : ∀ ds, approvals = some ds → decimalValue ds ≤ maxInt intSize)
    (hb : Blank trailing) :
    parseSection intSize parseRule line opts
      = .ok { Optional := decide (pre = ['^']), Name := name,
              Approvals := approvalsNumber approvals, Owners := [] } := by
  rw [parseSection_in_range intSize parseRule opts hd ht hr]
  unfold withOwners
  rw [if_pos (blank_stripSpace hb)]

/-- An instance of C5: blank text after the approvals group, with a rule
parser that would fail. -/
theorem parseSection_blank_owners_witness :
    parseSection 64 failRule "[Section Name][2] \t ".toList ()
      = .ok ⟨false, "Section Name".toList, 2, []⟩ :=
  parseSection_blank_owners 64 failRule () "[Section Name][2] \t ".toList []
    "Section Name".toList "[2] \t ".toList " \t ".toList (some ['2'])
    ⟨rfl, Or.inl rfl, by decide, by decide, by decide⟩
    (Or.inl ⟨['2'], rfl, rfl, by decide, by decide⟩)
    (fun ds hds => by cases hds; decide)
    (by decide)

/-- C6, as it stands, fails: on a header whose owners text is not blank but
whose approvals number does not fit a 64-bit `int`, `parseSection` returns the
approvals error and no section, though the rule parser would succeed on the
owners text. -/
theorem parseSection_owners_counterexample :
    IsHeader "[A][9223372036854775808] @x".toList [] ['A'] "[9223372036854775808] @x".toList ∧
    ApprovalsGroup "[9223372036854775808] @x".toList "9223372036854775808".toList " @x".toList ∧
    ¬ Blank (stripSpace " @x".toList) ∧
    echoRule ("/* ".toList ++ stripSpace " @x".toList) ()
      = .ok ⟨false, [⟨"/* @x".toList, "echo"⟩], ()⟩ ∧
    parseSection 64 echoRule "[A][9223372036854775808] @x".toList ()
      = .error (.wrapf approvalsMsg
          (.numError "Atoi" "9223372036854775808".toList .ErrRange)) :=
  ⟨⟨rfl, Or.inl rfl, by decide, by decide, by decide⟩, ⟨rfl, by decide, by decide⟩,
    by decide, rfl, rfl⟩

/-- C6, amended: on a header whose approvals group, if it has one, is in the
range of `int`, and whose owners text (what follows the name or the approvals
group, without one leading space) is not blank, `parseSection` gives the rule
parser the owners text as it stands after the three characters of the stub
pattern, with the options of the caller, and a rule it returns gives the
section its owners, as they are. -/
theorem parseSection_owners {parseOptions ρ : Type} (intSize : Nat)
    (parseRule : GoString → parseOptions → Except Error (Rule ρ)) (opts : parseOptions)
    (line pre name tail trailing : GoString) (approvals : Option GoString)
    (hd : IsHeader line pre name tail) (ht : TailParts tail approvals trailing)
    (hr : ∀ ds, approvals = some ds → decimalValue ds ≤ maxInt intSize)
    (hnb : ¬ Blank (stripSpace trailing)) :
    parseSection intSize parseRule line opts
      = (match parseRule ("/* ".toList ++ stripSpace trailing) opts with
        | .ok r =>
          .ok { Optional := decide (pre = ['^']), Name := name,
                Approvals := approvalsNumber approvals, Owners := r.Owners }
        | .error err => .error (.wrapf ownersMsg err)) ∧
    ∀ r, parseRule ("/* ".toList ++ stripSpace trailing) opts = .ok r →
      parseSection intSize parseRule line opts
        = .ok { Optional := decide (pre = ['^']), Name := name,
                Approvals := approvalsNumber approvals, Owners := r.Owners } := by
  rw [parseSection_in_range intSize parseRule opts hd ht hr]
  unfold withOwners
  rw [if_neg hnb]
  constructor
  · cases parseRule ("/* ".toList ++ stripSpace trailing) opts <;> rfl
  · intro r hr'
    rw [hr']

/-- An instance of C6: for a header with two spaces before the owner, the
rule parser receives the stub pattern, a space, and the second space with the
owner. -/
theorem parseSection_owners_witness :
    parseSection 64 echoRule "[A]  @x".toList ()
      = .ok ⟨false, ['A'], 1, [⟨"/*  @x".toList, "echo"⟩]⟩ :=
  (parseSection_owners 64 echoRule () "[A]  @x".toList [] ['A'] "  @x".toList "  @x".toList
    none ⟨rfl, Or.inl rfl, by decide, by decide, by decide⟩
    (Or.inr ⟨rfl, rfl, by rintro ⟨ds, t, h, _⟩; cases h⟩)
    (fun ds hds => by cases hds)
    (by decide)).2 ⟨false, [⟨"/*  @x".toList, "echo"⟩], ()⟩ rfl

/-- C7: on a header whose approvals group, if it has one, is in the range of
`int`, and whose owners text is not blank, a failure of the rule parser on the
stub line makes `parseSection` fail: there is no section, and the error wraps
the error of the rule parser, so that it is `ErrNoMatch` for `errors.Is` only
if the wrapped error is. -/
theorem parseSection_owner_failure {parseOptions ρ : Type} (intSize : Nat)
    (parseRule : GoString → parseOptions → Except Error (Rule ρ)) (opts : parseOptions)
    (line pre name tail trailing : GoString) (approvals : Option GoString) (err : Error)
    (hd : IsHeader line pre name tail) (ht : TailParts tail approvals trailing)
    (hr : ∀ ds, approvals = some ds → decimalValue ds ≤ maxInt intSize)
    (hnb : ¬ Blank (stripSpace trailing))
    (he : parseRule ("/* ".toList ++ stripSpace trailing) opts = .error err) :
    parseSection intSize parseRule line opts = .error (.wrapf ownersMsg err) ∧
    (∀ sec, parseSection intSize parseRule line opts ≠ .ok sec) ∧
    parseSection intSize parseRule line opts ≠ .error .ErrNoMatch ∧
    (Error.wrapf ownersMsg err).Is .ErrNoMatch = err.Is .ErrNoMatch := by
  have h : parseSection intSize parseRule line opts = .error (.wrapf ownersMsg err) := by
    rw [parseSection_in_range intSize parseRule opts hd ht hr]
    unfold withOwners
    rw [if_neg hnb, he]
  refine ⟨h, ?_, ?_, ?_⟩
  · intro sec hs
    rw [h] at hs
    cases hs
  · intro hs
    rw [h] at hs
    cases hs
  · simp [Error.Is]

/-- An instance of C7, with a rule parser that fails. -/
theorem parseSection_owner_failure_witness :
    parseSection 64 failRule "[A][2] @x".toList ()
      = .error (.wrapf ownersMsg (.other "unexpected character in owner")) :=
  (parseSection_owner_failure 64 failRule () "[A][2] @x".toList [] ['A'] "[2] @x".toList
    " @x".toList (some ['2']) (.other "unexpected character in owner")
    ⟨rfl, Or.inl rfl, by decide, by decide, by decide⟩
    (Or.inl ⟨['2'], rfl, rfl, by decide, by decide⟩)
    (fun ds hds => by cases hds; decide)
    (by decide) rfl).1

/-- C8: on a header with an approvals group, digits whose value is above the
largest `int` make `parseSection` fail with the approvals error, which wraps
the range error of `Atoi`, and there is no section; digits whose value fits,
leading zeros or not, never give the approvals error.  For 64 bits the largest
`int` is `2 ^ 63 - 1`. -/
theorem parseSection_approvals_range {parseOptions ρ : Type} (intSize : Nat)
    (parseRule : GoString → parseOptions → Except Error (Rule ρ)) (opts : parseOptions)
    (line pre name tail ds trailing : GoString)
    (hd : IsHeader line pre name tail) (hg : ApprovalsGroup tail ds trailing) :
    (maxInt intSize < decimalValue ds →
      parseSection intSize parseRule line opts
        = .error (.wrapf approvalsMsg (.numError "Atoi" ds .ErrRange))) ∧
    (decimalValue ds ≤ maxInt intSize →
      ∀ cause, parseSection intSize parseRule line opts ≠ .error (.wrapf approvalsMsg cause)) ∧
    maxInt 64 = 2 ^ 63 - 1 := by
  have ht : TailParts tail (some ds) trailing := Or.inl ⟨ds, rfl, hg⟩
  refine ⟨?_, ?_, rfl⟩
  · intro hlt
    rw [parseSection_of_parts intSize parseRule opts hd ht]
    simp only [hlt, if_true]
  · intro hle cause h
    rw [parseSection_in_range intSize parseRule opts hd ht
      (fun ds' hds' => by cases hds'; exact hle)] at h
    obtain ⟨c, hc⟩ := withOwners_error h
    have hmsg : approvalsMsg ≠ ownersMsg := by decide
    exact hmsg (Error.wrapf.inj hc).1

/-- An instance of C8: the value `2 ^ 63` is refused for 64 bits, and seven
written with leading zeros is accepted. -/
theorem parseSection_approvals_range_witness :
    parseSection 64 echoRule "[A][9223372036854775808]".toList ()
      = .error (.wrapf approvalsMsg (.numError "Atoi" "9223372036854775808".toList .ErrRange)) ∧
    parseSection 64 echoRule "[A][007]".toList () = .ok ⟨false, ['A'], 7, []⟩ ∧
    parseSection 64 echoRule "[A][007]".toList ()
      ≠ .error (.wrapf approvalsMsg (.numError "Atoi" "007".toList .ErrRange)) :=
  ⟨(parseSection_approvals_range 64 echoRule () "[A][9223372036854775808]".toList [] ['A']
      "[9223372036854775808]".toList "9223372036854775808".toList []
      ⟨rfl, Or.inl rfl, by decide, by decide, by decide⟩ ⟨rfl, by decide, by decide⟩).1
      (by decide),
   rfl,
   (parseSection_approvals_range 64 echoRule () "[A][007]".toList [] ['A']
      "[007]".toList "007".toList []
      ⟨rfl, Or.inl rfl, by decide, by decide, by decide⟩ ⟨rfl, by decide, by decide⟩).2.1
      (by decide) _⟩

/-! ## The claims about addFromSection -/

/-- C9: after `addFromSection` the owners of the rule are the owners of the
section when the rule had none and the section has some, and the owners the
rule had in every other case; so owners of the rule are never overwritten, and
a section without owners leaves them as they were. -/
theorem addFromSection_owners {ρ : Type} (r : Rule ρ) (s : Section) :
    (addFromSection r s).1.Owners
        = (if r.Owners = [] ∧ s.Owners ≠ [] then s.Owners else r.Owners) ∧
    (r.Owners ≠ [] → (addFromSection r s).1.Owners = r.Owners) ∧
    (s.Owners = [] → (addFromSection r s).1.Owners = r.Owners) := by
  have h : (addFromSection r s).1.Owners
      = (if r.Owners = [] ∧ s.Owners ≠ [] then s.Owners else r.Owners) := by
    by_cases hc : r.Owners = [] ∧ s.Owners ≠ []
    · have hc' : r.Owners.length = 0 ∧ s.Owners.length > 0 :=
        ⟨by rw [hc.1]; rfl, List.length_pos.mpr hc.2⟩
      rw [if_pos hc]
      show (if r.Owners.length = 0 ∧ s.Owners.length > 0 then
          (({ Optional := s.Optional, Owners := s.Owners, rest := r.rest } : Rule ρ), s)
        else (({ Optional := s.Optional, Owners := r.Owners, rest := r.rest } : Rule ρ), s)
        ).1.Owners = s.Owners
      rw [if_pos hc']
    · have hc' : ¬ (r.Owners.length = 0 ∧ s.Owners.length > 0) := by
        rintro ⟨h1, h2⟩
        exact hc ⟨List.length_eq_zero.mp h1, List.length_pos.mp h2⟩
      rw [if_neg hc]
      show (if r.Owners.length = 0 ∧ s.Owners.length > 0 then
          (({ Optional := s.Optional, Owners := s.Owners, rest := r.rest } : Rule ρ), s)
        else (({ Optional := s.Optional, Owners := r.Owners, rest := r.rest } : Rule ρ), s)
        ).1.Owners = r.Owners
      rw [if_neg hc']
  refine ⟨h, ?_, ?_⟩
  · intro hr
    rw [h, if_neg (fun hc => hr hc.1)]
  · intro hs
    rw [h, if_neg (fun hc => hc.2 hs)]

/-- An instance of C9: the two cases of the repository's test of
`addFromSection`. -/
theorem addFromSection_owners_witness :
    (addFromSection (⟨false, [⟨"user".toList, "username"⟩], ()⟩ : Rule Unit)
        ⟨false, [], 0, [⟨"default.owner".toList, "username"⟩]⟩).1.Owners
      = [⟨"user".toList, "username"⟩] ∧
    (addFromSection (⟨false, [], ()⟩ : Rule Unit)
        ⟨false, [], 0, [⟨"default.owner".toList, "username"⟩]⟩).1.Owners
      = [⟨"default.owner".toList, "username"⟩] :=
  ⟨(addFromSection_owners _ _).2.1 (by decide), (addFromSection_owners _ _).1⟩

/-- C10: after `addFromSection` the rule is optional exactly when the section
is, whatever the rule was before and whatever the owners are. -/
theorem addFromSection_optional {ρ : Type} (r : Rule ρ) (s : Section) :
    (addFromSection r s).1.Optional = s.Optional := by
  show (if r.Owners.length = 0 ∧ s.Owners.length > 0 then
      (({ Optional := s.Optional, Owners := s.Owners, rest := r.rest } : Rule ρ), s)
    else (({ Optional := s.Optional, Owners := r.Owners, rest := r.rest } : Rule ρ), s)
    ).1.Optional = s.Optional
  split <;> rfl


/-! ## The further claims -/

/-- C11: `addFromSection` is idempotent for a fixed section: a second call with
the same section leaves the rule, and the section, as the first call left
them. -/
theorem addFromSection_idempotent {ρ : Type} (r : Rule ρ) (s : Section) :
    (addFromSection (addFromSection r s).1 s).1 = (addFromSection r s).1 ∧
    addFromSection (addFromSection r s).1 (addFromSection r s).2 = addFromSection r s := by
  have h : (addFromSection (addFromSection r s).1 s) = addFromSection r s := by
    rw [addFromSection_eq (addFromSection r s).1 s, addFromSection_eq r s]
    by_cases hc : r.Owners = [] ∧ s.Owners ≠ []
    · simp only [hc, ne_eq, not_false_eq_true, and_self, if_true]
      simp [hc.2]
    · simp only [hc, if_false]
  refine ⟨by rw [h], ?_⟩
  have hs : (addFromSection r s).2 = s := by rw [addFromSection_eq]
  rw [hs]
  exact h

/-- C12: parsing undoes rendering for headers without owners: for a flag, a
name that is not empty and has no bracket and no newline, and a number that
fits `int`, the rendered header with the number in brackets parses to the
section of that flag, name and number with no owners, and the rendered header
without the number to the same section with the number 1. -/
theorem parseSection_rendered {parseOptions ρ : Type} (intSize : Nat)
    (parseRule : GoString → parseOptions → Except Error (Rule ρ)) (opts : parseOptions)
    (opt : Bool) (name : GoString) (n : Nat) (hne : name ≠ [])
    (hname : ∀ c ∈ name, c ≠ '[' ∧ c ≠ ']' ∧ c ≠ '\n') (hn : n ≤ maxInt intSize) :
    parseSection intSize parseRule
        ((if opt = true then ['^'] else []) ++ '[' :: (name ++ ']' :: '[' :: (decimal n ++ [']'])))
        opts
      = .ok { Optional := opt, Name := name, Approvals := (n : Int), Owners := [] } ∧
    parseSection intSize parseRule
        ((if opt = true then ['^'] else []) ++ '[' :: (name ++ [']'])) opts
      = .ok { Optional := opt, Name := name, Approvals := 1, Owners := [] } := by
  obtain ⟨hd1, hd2, hd3⟩ := decimal_digits n
  have hopt : decide ((if opt = true then ['^'] else []) = ['^']) = opt := by
    cases opt <;> decide
  have hblank : Blank (stripSpace []) := fun c hc => absurd hc (List.not_mem_nil c)
  constructor
  · have htail : '\n' ∉ '[' :: (decimal n ++ [']']) := by
      simp only [List.mem_cons, List.mem_append, List.mem_singleton, not_or]
      refine ⟨by decide, fun hm => ?_, by decide, List.not_mem_nil _⟩
      have := hd2 _ hm
      exact absurd this (by decide)
    have hd := isHeader_rendered opt name _ hne hname htail
    have ht : TailParts ('[' :: (decimal n ++ [']'])) (some (decimal n)) [] :=
      Or.inl ⟨decimal n, rfl, rfl, hd1, hd2⟩
    rw [parseSection_in_range intSize parseRule opts hd ht
      (fun ds hds => by cases hds; rw [hd3]; exact hn)]
    unfold withOwners
    rw [if_pos hblank, hopt]
    simp only [approvalsNumber, hd3]
  · have hd := isHeader_rendered opt name [] hne hname (List.not_mem_nil _)
    have ht : TailParts [] none [] :=
      Or.inr ⟨rfl, rfl, by rintro ⟨ds, t, h, _⟩; cases h⟩
    rw [parseSection_in_range intSize parseRule opts hd ht (fun ds hds => by cases hds)]
    unfold withOwners
    rw [if_pos hblank, hopt]
    rfl

/-- An instance of C12: the two headers without owners of the repository's
test of `parseSection`. -/
theorem parseSection_rendered_witness :
    parseSection 64 failRule "^[Optional Section]".toList ()
      = .ok ⟨true, "Optional Section".toList, 1, []⟩ ∧
    parseSection 64 failRule "[Section Name][2]".toList ()
      = .ok ⟨false, "Section Name".toList, 2, []⟩ :=
  ⟨(parseSection_rendered 64 failRule () true "Optional Section".toList 0
      (by decide) (by decide) (by decide)).2,
   (parseSection_rendered 64 failRule () false "Section Name".toList 2
      (by decide) (by decide) (by decide)).1⟩

/-- C13: a section that `parseSection` returns satisfies the invariant of the
data model: its name is not empty and has no bracket and no newline in it, and
its approvals number is not negative. -/
theorem parseSection_invariant {parseOptions ρ : Type} (intSize : Nat)
    (parseRule : GoString → parseOptions → Except Error (Rule ρ)) (opts : parseOptions)
    (line : GoString) (sec : Section)
    (h : parseSection intSize parseRule line opts = .ok sec) :
    sec.Name ≠ [] ∧ (∀ c ∈ sec.Name, c ≠ '[' ∧ c ≠ ']' ∧ c ≠ '\n') ∧ 0 ≤ sec.Approvals := by
  obtain ⟨pre, name, tail, hd⟩ := parseSection_ok_header h
  obtain ⟨approvals, trailing, ht⟩ := tailParts_exists tail
  obtain ⟨_, hname, happ, _⟩ := withOwners_ok (parseSection_ok_parts h hd ht).2
  obtain ⟨_, _, hne, hchars, _⟩ := hd
  rw [hname, happ]
  refine ⟨hne, hchars, ?_⟩
  cases approvals with
  | none => decide
  | some ds => exact Int.ofNat_nonneg _

/-- An instance of C13, on a header with a written zero. -/
theorem parseSection_invariant_witness :
    parseSection 64 echoRule "^[A b][0] @x".toList ()
      = .ok ⟨true, "A b".toList, 0, [⟨"/* @x".toList, "echo"⟩]⟩ ∧
    ("A b".toList ≠ [] ∧ (∀ c ∈ "A b".toList, c ≠ '[' ∧ c ≠ ']' ∧ c ≠ '\n') ∧ (0 : Int) ≤ 0) :=
  ⟨rfl, parseSection_invariant 64 echoRule () "^[A b][0] @x".toList
    ⟨true, "A b".toList, 0, [⟨"/* @x".toList, "echo"⟩]⟩ rfl⟩

/-- C14: `addFromSection` changes nothing but the two fields `Optional` and
`Owners` of the rule: every other field of the rule keeps its value, and the
section, with all its fields, is after the call what it was before. -/
theorem addFromSection_frame {ρ : Type} (r : Rule ρ) (s : Section) :
    (addFromSection r s).1.rest = r.rest ∧ (addFromSection r s).2 = s ∧
    (addFromSection r s).2.Optional = s.Optional ∧ (addFromSection r s).2.Name = s.Name ∧
    (addFromSection r s).2.Approvals = s.Approvals ∧
    (addFromSection r s).2.Owners = s.Owners := by
  rw [addFromSection_eq]
  exact ⟨rfl, rfl, rfl, rfl, rfl, rfl⟩

/-- C15, as it stands, fails: when neither the rule nor the first section has
owners, the rule is still without owners after the first call, and the second
call gives it the owners of the second section. -/
theorem addFromSection_first_wins_counterexample :
    (addFromSection (addFromSection (⟨false, [], ()⟩ : Rule Unit) ⟨false, ['A'], 1, []⟩).1
        ⟨false, ['B'], 1, [⟨"default.owner".toList, "username"⟩]⟩).1.Owners
      = [⟨"default.owner".toList, "username"⟩] ∧
    (addFromSection (⟨false, [], ()⟩ : Rule Unit) ⟨false, ['A'], 1, []⟩).1.Owners = [] ∧
    (addFromSection (addFromSection (⟨false, [], ()⟩ : Rule Unit) ⟨false, ['A'], 1, []⟩).1
        ⟨false, ['B'], 1, [⟨"default.owner".toList, "username"⟩]⟩).1.Owners
      ≠ (addFromSection (⟨false, [], ()⟩ : Rule Unit) ⟨false, ['A'], 1, []⟩).1.Owners := by
  decide

/-- C15, amended: the first section with owners wins.  After two calls of
`addFromSection` on a rule, the owners of the rule are the owners it had after
the first call exactly when the rule had owners of its own, or the first
section has owners, or the second section has none; in the first two cases the
rule is populated after the first call and the second call leaves its owners.
When neither the rule nor the first section has owners, the second call gives
the rule the owners of the second section.  In every case the final owners are
those of the rule if it had any, else those of the first section if it has
any, else those of the second section. -/
theorem addFromSection_first_wins {ρ : Type} (r : Rule ρ) (s1 s2 : Section) :
    ((addFromSection (addFromSection r s1).1 s2).1.Owners = (addFromSection r s1).1.Owners ↔
      (r.Owners ≠ [] ∨ s1.Owners ≠ [] ∨ s2.Owners = [])) ∧
    (r.Owners ≠ [] ∨ s1.Owners ≠ [] →
      (addFromSection r s1).1.Owners ≠ [] ∧
      (addFromSection (addFromSection r s1).1 s2).1.Owners = (addFromSection r s1).1.Owners) ∧
    (r.Owners = [] → s1.Owners = [] →
      (addFromSection r s1).1.Owners = [] ∧
      (addFromSection (addFromSection r s1).1 s2).1.Owners = s2.Owners) ∧
    (addFromSection (addFromSection r s1).1 s2).1.Owners
      = (if r.Owners ≠ [] then r.Owners
         else if s1.Owners ≠ [] then s1.Owners
         else s2.Owners) := by
  rw [addFromSection_eq (addFromSection r s1).1 s2, addFromSection_eq r s1]
  by_cases h1 : r.Owners = []
  · by_cases h2 : s1.Owners = []
    · by_cases h3 : s2.Owners = []
      · simp [h1, h2, h3]
      · simp [h1, h2, h3]
    · simp [h1, h2]
  · simp [h1]

/-- An instance of C15, amended: for a rule without owners, a first section
with an owner keeps its owner against a second section with another, and a
first section without owners leaves the rule to the second section. -/
theorem addFromSection_first_wins_witness :
    (addFromSection (addFromSection (⟨false, [], ()⟩ : Rule Unit)
          ⟨false, ['A'], 1, [⟨"first".toList, "username"⟩]⟩).1
        ⟨false, ['B'], 1, [⟨"second".toList, "username"⟩]⟩).1.Owners
      = (addFromSection (⟨false, [], ()⟩ : Rule Unit)
          ⟨false, ['A'], 1, [⟨"first".toList, "username"⟩]⟩).1.Owners ∧
    (addFromSection (addFromSection (⟨true, [], ()⟩ : Rule Unit)
          ⟨false, ['A'], 1, []⟩).1
        ⟨false, ['B'], 1, [⟨"second".toList, "username"⟩,
          ⟨"people/team".toList, "team"⟩]⟩).1.Owners
      = [⟨"second".toList, "username"⟩, ⟨"people/team".toList, "team"⟩] :=
  ⟨((addFromSection_first_wins _ _ _).2.1 (Or.inr (by decide))).2,
   ((addFromSection_first_wins _ _ _).2.2.1 rfl rfl).2⟩

/-- C16, as it stands, fails: `parseSection` does not match the line with a
bracket inside the brackets, and returns no section named after the text up to
the inner closing bracket. -/
theorem parseSection_nested_counterexample :
    parseSection 64 echoRule "[A[B]]".toList () = .error .ErrNoMatch ∧
    ¬ ∃ sec, parseSection 64 echoRule "[A[B]]".toList () = .ok sec ∧
      sec.Name = "A[B".toList := by
  have h : parseSection 64 echoRule "[A[B]]".toList () = .error .ErrNoMatch := rfl
  refine ⟨h, ?_⟩
  rintro ⟨sec, hs, _⟩
  rw [h] at hs
  cases hs

/-- C16, amended: the class of the name excludes the opening bracket, so the
line with a bracket inside the brackets is no section header: `parseSection`
fails on it with `ErrNoMatch`, for every rule parser. -/
theorem parseSection_nested {parseOptions ρ : Type} (intSize : Nat)
    (parseRule : GoString → parseOptions → Except Error (Rule ρ)) (opts : parseOptions) :
    parseSection intSize parseRule "[A[B]]".toList opts = .error .ErrNoMatch ∧
    sectionRegexp.FindStringSubmatch "[A[B]]".toList = none :=
  ⟨parseSection_of_none intSize parseRule opts (by decide), by decide⟩

/-- C17: the branch of `parseSection` for an unexpected number of matches is
never taken: a match of the section pattern has exactly five entries, and
every failure of `parseSection` is `ErrNoMatch`, or the wrapped error of the
conversion of the approvals, or the wrapped error of the rule parser. -/
theorem parseSection_errors {parseOptions ρ : Type} (intSize : Nat)
    (parseRule : GoString → parseOptions → Except Error (Rule ρ)) (opts : parseOptions)
    (line : GoString) :
    (∀ m, sectionRegexp.FindStringSubmatch line = some m → m.length = 5) ∧
    (∀ e, parseSection intSize parseRule line opts = .error e →
      e = .ErrNoMatch ∨
      (∃ ds cause, Atoi intSize ds = .error cause ∧ e = .wrapf approvalsMsg cause) ∨
      (∃ t cause, parseRule ("/* ".toList ++ t) opts = .error cause ∧
        e = .wrapf ownersMsg cause)) ∧
    (∀ msg, parseSection intSize parseRule line opts ≠ .error (.errorf msg)) := by
  have hcases : ∀ e, parseSection intSize parseRule line opts = .error e →
      e = .ErrNoMatch ∨
      (∃ ds cause, Atoi intSize ds = .error cause ∧ e = .wrapf approvalsMsg cause) ∨
      (∃ t cause, parseRule ("/* ".toList ++ t) opts = .error cause ∧
        e = .wrapf ownersMsg cause) := by
    intro e he
    cases hf : headerFields line with
    | none =>
      rw [parseSection_of_none intSize parseRule opts hf] at he
      cases he
      exact Or.inl rfl
    | some m =>
      obtain ⟨pre, name, tail, hd, _⟩ := isHeader_of_headerFields hf
      obtain ⟨approvals, trailing, ht⟩ := tailParts_exists tail
      rw [parseSection_of_parts intSize parseRule opts hd ht] at he
      cases approvals with
      | none =>
        obtain ⟨cause, hc, hw⟩ := withOwners_error_cause he
        exact Or.inr (Or.inr ⟨_, cause, hc, hw⟩)
      | some ds =>
        by_cases hlt : maxInt intSize < decimalValue ds
        · simp only [hlt, if_true] at he
          cases he
          rcases ht with ⟨ds', hds', hg⟩ | ⟨hn, _⟩
          · cases hds'
            refine Or.inr (Or.inl ⟨ds, _, ?_, rfl⟩)
            rw [Atoi_digits intSize ds hg.2.1 hg.2.2, if_pos hlt]
          · cases hn
        · simp only [hlt, if_false] at he
          obtain ⟨cause, hc, hw⟩ := withOwners_error_cause he
          exact Or.inr (Or.inr ⟨_, cause, hc, hw⟩)
  refine ⟨?_, hcases, ?_⟩
  · intro m hm
    rw [FindStringSubmatch_sectionRegexp] at hm
    exact length_of_headerFields hm
  · intro msg he
    rcases hcases _ he with h | ⟨_, _, _, h⟩ | ⟨_, _, _, h⟩ <;> cases h

/-- An instance of C17: the five entries of the match of a header with all its
parts. -/
theorem parseSection_errors_witness :
    sectionRegexp.FindStringSubmatch "^[A][2] @x".toList
      = some ["^[A][2] @x".toList, ['^'], ['A'], ['2'], "@x".toList] ∧
    ["^[A][2] @x".toList, ['^'], ['A'], ['2'], "@x".toList].length = 5 :=
  ⟨rfl, (parseSection_errors 64 echoRule () "^[A][2] @x".toList).1 _ rfl⟩

end Codeowners
